import Mathlib

/-!
Verification of the bolomoty extraction pipeline against its specification.

The development shallowly embeds the core of the repository:
* `metadata_from_span` (src/api/tree_sitter/mod.rs) — span metrics over a byte buffer;
* the symbol-tree model `ASTNode`/`SyntaxNode` and the normalization pass
  `clean`/`stripComments` (src/clean.rs);
* the Python reducer's import collection, walk and call resolution
  (src/api/tree_sitter/py.rs) over an embedding of the grammar engine's
  concrete-syntax nodes;
* the name-qualification and call-resolution helpers of the Rust reducer
  (src/api/tree_sitter/rs.rs);
* the per-file orchestration of src/consolidate.rs with filesystem reads and
  grammar parsing supplied as oracles.

Byte buffers are `List Nat` (byte values); decoded text is a `List Nat` of
Unicode scalar values produced by a strict UTF-8 decoder mirroring
`std::str::from_utf8`.
-/

/-! ### Span metrics (src/api/tree_sitter/mod.rs) -/

/-- Embeds `Metadata` from src/api/tree_sitter/mod.rs: the five counters
carried by every symbol node. -/
structure Metadata where
  chars : Nat
  lines : Nat
  words : Nat
  whitespaces : Nat
  newlines : Nat
deriving DecidableEq

/-- The all-zero accumulator `clean` starts from (src/clean.rs, lines 8-14). -/
def emptyMetadata : Metadata := ⟨0, 0, 0, 0, 0⟩

/-- Field-wise addition, embedding the five `+=` statements of
`strip_comments` (src/clean.rs, lines 44-48). -/
def addMetadata (a b : Metadata) : Metadata :=
  ⟨a.chars + b.chars, a.lines + b.lines, a.words + b.words,
   a.whitespaces + b.whitespaces, a.newlines + b.newlines⟩

/-- The Unicode `White_Space` property on scalar values, the semantics of
Rust's `char::is_whitespace` used by `metadata_from_span`. -/
def isRustWhitespace (c : Nat) : Bool :=
  c == 0x09 || c == 0x0A || c == 0x0B || c == 0x0C || c == 0x0D || c == 0x20 ||
  c == 0x85 || c == 0xA0 || c == 0x1680 || (0x2000 ≤ c && c ≤ 0x200A) ||
  c == 0x2028 || c == 0x2029 || c == 0x202F || c == 0x205F || c == 0x3000

/-- Counts maximal runs of non-whitespace scalars, the semantics of Rust's
`str::split_whitespace().count()`. The flag records whether the previous
scalar was inside a word. -/
def countWordsAux (inWord : Bool) : List Nat → Nat
  | [] => 0
  | c :: rest =>
    if isRustWhitespace c then countWordsAux false rest
    else (if inWord then 0 else 1) + countWordsAux true rest

/-- Word count of a decoded text, as `text.split_whitespace().count()`. -/
def countWords (text : List Nat) : Nat := countWordsAux false text

/-- Strict UTF-8 decoding of a byte list into Unicode scalar values, the
semantics of `std::str::from_utf8`: continuation bytes must lie in the ranges
that exclude overlong encodings, surrogates and values above U+10FFFF. -/
def decodeUtf8 : List Nat → Option (List Nat)
  | [] => some []
  | b :: rest =>
    if b < 0x80 then (decodeUtf8 rest).map (b :: ·)
    else if b < 0xC2 then none
    else if b < 0xE0 then
      match rest with
      | b1 :: r =>
        if 0x80 ≤ b1 ∧ b1 < 0xC0 then
          (decodeUtf8 r).map (((b - 0xC0) * 0x40 + (b1 - 0x80)) :: ·)
        else none
      | [] => none
    else if b < 0xF0 then
      match rest with
      | b1 :: b2 :: r =>
        if ((if b = 0xE0 then 0xA0 else 0x80) ≤ b1 ∧
            b1 < (if b = 0xED then 0xA0 else 0xC0)) ∧
            (0x80 ≤ b2 ∧ b2 < 0xC0) then
          (decodeUtf8 r).map
            (((b - 0xE0) * 0x1000 + (b1 - 0x80) * 0x40 + (b2 - 0x80)) :: ·)
        else none
      | _ => none
    else if b < 0xF5 then
      match rest with
      | b1 :: b2 :: b3 :: r =>
        if ((if b = 0xF0 then 0x90 else 0x80) ≤ b1 ∧
            b1 < (if b = 0xF4 then 0x90 else 0xC0)) ∧
            (0x80 ≤ b2 ∧ b2 < 0xC0) ∧ (0x80 ≤ b3 ∧ b3 < 0xC0) then
          (decodeUtf8 r).map
            (((b - 0xF0) * 0x40000 + (b1 - 0x80) * 0x1000 +
              (b2 - 0x80) * 0x40 + (b3 - 0x80)) :: ·)
        else none
      | _ => none
    else none

/-- Embeds `src.get(start..end).unwrap_or(b"")`: the sub-buffer when the
half-open range is valid, the empty buffer otherwise. -/
def byteSlice (src : List Nat) (start stop : Nat) : List Nat :=
  if start ≤ stop ∧ stop ≤ src.length then (src.drop start).take (stop - start)
  else []

/-- Embeds `metadata_from_span` (src/api/tree_sitter/mod.rs, lines 73-87):
slice the byte range (empty on an invalid range), decode it as UTF-8 (empty
on invalid UTF-8), and count scalars, lines, words, non-newline whitespace
and newlines. -/
def metadata_from_span (src : List Nat) (start stop : Nat) : Metadata :=
  let text := (decodeUtf8 (byteSlice src start stop)).getD []
  let newlines := (text.filter (fun c => c == 10)).length
  { chars := text.length
  , lines := newlines + 1
  , words := countWords text
  , whitespaces := (text.filter (fun c => isRustWhitespace c && c != 10)).length
  , newlines := newlines }

/-- UTF-8 bytes of an ASCII string, used to build concrete source buffers. -/
def asciiBytes (s : String) : List Nat := s.data.map (fun c => c.toNat)

/-- The two metric invariants the specification states for span metrics. -/
def MetaInv (m : Metadata) : Prop :=
  m.lines = m.newlines + 1 ∧ m.whitespaces ≤ m.chars

/-- The weakened invariant that survives field-wise summation of comment
metrics: `lines` may exceed `newlines + 1` once several comments merge. -/
def WeakMetaInv (m : Metadata) : Prop :=
  m.newlines + 1 ≤ m.lines ∧ m.whitespaces ≤ m.chars

theorem metadata_from_span_metaInv (src : List Nat) (start stop : Nat) :
    MetaInv (metadata_from_span src start stop) := by
  constructor
  · rfl
  · exact List.length_filter_le _ _

/-- C7 — For every source buffer and every invalid byte range (start or stop
beyond the buffer length, or start greater than stop), `metadata_from_span`
returns the all-zero metrics vector with `lines = 1`. -/
theorem C7_invalid_span_yields_zero_metrics (src : List Nat) (start stop : Nat)
    (h : ¬ (start ≤ stop ∧ stop ≤ src.length)) :
    metadata_from_span src start stop = ⟨0, 1, 0, 0, 0⟩ := by
  have hd : decodeUtf8 [] = some [] := rfl
  unfold metadata_from_span byteSlice
  rw [if_neg h, hd]
  simp [countWords, countWordsAux]

/-- C7 witness: the range 10..20 is invalid for the two-byte buffer "hi",
and the metrics collapse to the zero vector with one line. -/
theorem C7_invalid_span_yields_zero_metrics_witness :
    ¬ ((10 : Nat) ≤ 20 ∧ 20 ≤ (asciiBytes "hi").length) ∧
      metadata_from_span (asciiBytes "hi") 10 20 = ⟨0, 1, 0, 0, 0⟩ :=
  ⟨by decide, C7_invalid_span_yields_zero_metrics (asciiBytes "hi") 10 20 (by decide)⟩

/-! ### Symbol tree model and the normalization pass (src/clean.rs) -/

/-- Embeds `ASTNode` from src/api/tree_sitter/mod.rs: the language-agnostic
node tag, each payload struct inlined as its single string field. -/
inductive ASTNode where
  | File (path : String)
  | Function (name : String)
  | «Type» (name : String)
  | Call (name : String)
  | Comment
deriving DecidableEq

/-- Embeds the `Syntax` struct from src/api/tree_sitter/mod.rs: a tagged
node, its span metrics, and its ordered children. -/
inductive SyntaxNode where
  | mk (node : ASTNode) (metadata : Metadata) (contains : List SyntaxNode)

def SyntaxNode.node : SyntaxNode → ASTNode
  | .mk nd _ _ => nd

def SyntaxNode.metadata : SyntaxNode → Metadata
  | .mk _ md _ => md

def SyntaxNode.contains : SyntaxNode → List SyntaxNode
  | .mk _ _ cs => cs

/-- Embeds `strip_comments` (src/clean.rs, lines 39-57): remove every
`Comment` node at any depth, threading the mutable accumulator `acc`
explicitly and returning the final accumulator alongside the kept nodes. -/
def stripComments : List SyntaxNode → Metadata → List SyntaxNode × Metadata
  | [], acc => ([], acc)
  | .mk nd md cs :: rest, acc =>
    match nd with
    | ASTNode.Comment => stripComments rest (addMetadata acc md)
    | _ =>
      let p := stripComments cs acc
      let q := stripComments rest p.2
      (.mk nd md p.1 :: q.1, q.2)

/-- Embeds `clean` (src/clean.rs, lines 7-37): strip all comments, then emit
a `File` node carrying whole-buffer metrics, an aggregated `Comment` node
when the accumulated character count is nonzero, and the stripped remainder.
The path is the display form of the `&Path` argument. -/
def clean (path : String) (source : List Nat) (nodes : List SyntaxNode) :
    List SyntaxNode :=
  let p := stripComments nodes emptyMetadata
  let fileMeta := metadata_from_span source 0 source.length
  .mk (ASTNode.File path) fileMeta [] ::
    ((if 0 < p.2.chars then [.mk ASTNode.Comment p.2 []] else []) ++ p.1)

/-! Specification-side descriptions of the clean pass, written from the
spec's words: depth-preserving comment removal and the field-wise total of
the removed comments' metrics. They are compared with the accumulator-style
`stripComments` by refinement lemmas below. -/

/-- Comment-stripped remainder: every `Comment` node, at any depth, removed
from its exact position; sibling order and non-comment nodes untouched. -/
def stripSpec : List SyntaxNode → List SyntaxNode
  | [] => []
  | .mk nd md cs :: rest =>
    match nd with
    | ASTNode.Comment => stripSpec rest
    | _ => .mk nd md (stripSpec cs) :: stripSpec rest

/-- Field-wise total of the metrics of every `Comment` node, at any depth. -/
def commentTotal : List SyntaxNode → Metadata
  | [] => emptyMetadata
  | .mk nd md cs :: rest =>
    match nd with
    | ASTNode.Comment => addMetadata md (commentTotal rest)
    | _ => addMetadata (commentTotal cs) (commentTotal rest)

/-- The metrics of every `Comment` node, at any depth, in traversal order. -/
def collectComments : List SyntaxNode → List Metadata
  | [] => []
  | .mk nd md cs :: rest =>
    match nd with
    | ASTNode.Comment => md :: collectComments rest
    | _ => collectComments cs ++ collectComments rest

/-- The metrics of every node, at any depth, in traversal order. -/
def collectAllMetas : List SyntaxNode → List Metadata
  | [] => []
  | .mk _ md cs :: rest => md :: (collectAllMetas cs ++ collectAllMetas rest)

/-- Field-wise sum of a list of metric records. -/
def sumMetadata (l : List Metadata) : Metadata := l.foldr addMetadata emptyMetadata

/-- Every node of the forest, at any depth, has metrics satisfying `p`. -/
def AllMeta (p : Metadata → Prop) (ns : List SyntaxNode) : Prop :=
  ∀ m ∈ collectAllMetas ns, p m

theorem addMetadata_empty_left (m : Metadata) : addMetadata emptyMetadata m = m := by
  cases m; simp [addMetadata, emptyMetadata]

theorem addMetadata_empty_right (m : Metadata) : addMetadata m emptyMetadata = m := by
  cases m; simp [addMetadata, emptyMetadata]

theorem addMetadata_assoc (a b c : Metadata) :
    addMetadata (addMetadata a b) c = addMetadata a (addMetadata b c) := by
  cases a; cases b; cases c; simp [addMetadata]; omega

/-- Induction principle for syntax forests, recursing into both the children
of the head node and the remaining siblings. -/
theorem synList_induction (P : List SyntaxNode → Prop) (h0 : P [])
    (h1 : ∀ nd md cs rest, P cs → P rest → P (SyntaxNode.mk nd md cs :: rest)) :
    ∀ ns, P ns := by
  have H : ∀ n : Nat, ∀ ns : List SyntaxNode, sizeOf ns ≤ n → P ns := by
    intro n
    induction n with
    | zero =>
      intro ns h
      cases ns with
      | nil => exact h0
      | cons s rest => cases s; simp at h
    | succ n ih =>
      intro ns h
      cases ns with
      | nil => exact h0
      | cons s rest =>
        cases s with
        | mk nd md cs =>
          refine h1 nd md cs rest (ih cs ?_) (ih rest ?_) <;> (simp at h; omega)
  exact fun ns => H (sizeOf ns) ns le_rfl

/-! Unfolding lemmas for the recursive functions on syntax forests. -/

theorem stripComments_nil (acc : Metadata) : stripComments [] acc = ([], acc) := by
  simp [stripComments]

theorem stripComments_cons_comment (md : Metadata) (cs rest : List SyntaxNode)
    (acc : Metadata) :
    stripComments (.mk ASTNode.Comment md cs :: rest) acc =
      stripComments rest (addMetadata acc md) := by
  simp [stripComments]

theorem stripComments_cons_ne (nd : ASTNode) (hnd : nd ≠ ASTNode.Comment)
    (md : Metadata) (cs rest : List SyntaxNode) (acc : Metadata) :
    stripComments (.mk nd md cs :: rest) acc =
      (.mk nd md (stripComments cs acc).1 ::
         (stripComments rest (stripComments cs acc).2).1,
       (stripComments rest (stripComments cs acc).2).2) := by
  cases nd <;> first
    | exact absurd rfl hnd
    | simp [stripComments]

theorem stripSpec_nil : stripSpec [] = [] := by simp [stripSpec]

theorem stripSpec_cons_comment (md : Metadata) (cs rest : List SyntaxNode) :
    stripSpec (.mk ASTNode.Comment md cs :: rest) = stripSpec rest := by
  simp [stripSpec]

theorem stripSpec_cons_ne (nd : ASTNode) (hnd : nd ≠ ASTNode.Comment)
    (md : Metadata) (cs rest : List SyntaxNode) :
    stripSpec (.mk nd md cs :: rest) = .mk nd md (stripSpec cs) :: stripSpec rest := by
  cases nd <;> first
    | exact absurd rfl hnd
    | simp [stripSpec]

theorem commentTotal_nil : commentTotal [] = emptyMetadata := by simp [commentTotal]

theorem commentTotal_cons_comment (md : Metadata) (cs rest : List SyntaxNode) :
    commentTotal (.mk ASTNode.Comment md cs :: rest) =
      addMetadata md (commentTotal rest) := by
  simp [commentTotal]

theorem commentTotal_cons_ne (nd : ASTNode) (hnd : nd ≠ ASTNode.Comment)
    (md : Metadata) (cs rest : List SyntaxNode) :
    commentTotal (.mk nd md cs :: rest) =
      addMetadata (commentTotal cs) (commentTotal rest) := by
  cases nd <;> first
    | exact absurd rfl hnd
    | simp [commentTotal]

theorem collectComments_nil : collectComments [] = [] := by simp [collectComments]

theorem collectComments_cons_comment (md : Metadata) (cs rest : List SyntaxNode) :
    collectComments (.mk ASTNode.Comment md cs :: rest) =
      md :: collectComments rest := by
  simp [collectComments]

theorem collectComments_cons_ne (nd : ASTNode) (hnd : nd ≠ ASTNode.Comment)
    (md : Metadata) (cs rest : List SyntaxNode) :
    collectComments (.mk nd md cs :: rest) =
      collectComments cs ++ collectComments rest := by
  cases nd <;> first
    | exact absurd rfl hnd
    | simp [collectComments]

theorem collectAllMetas_nil : collectAllMetas [] = [] := by simp [collectAllMetas]

theorem collectAllMetas_cons (nd : ASTNode) (md : Metadata) (cs rest : List SyntaxNode) :
    collectAllMetas (.mk nd md cs :: rest) =
      md :: (collectAllMetas cs ++ collectAllMetas rest) := by
  simp [collectAllMetas]

/-- Refinement: the accumulator-style `strip_comments` of the source equals
the compositional description — it returns the depth-preserving
comment-stripped forest together with the incoming accumulator plus the
field-wise total of all stripped comments. -/
theorem stripComments_eq :
    ∀ ns acc, stripComments ns acc = (stripSpec ns, addMetadata acc (commentTotal ns)) := by
  refine synList_induction (fun ns => ∀ acc,
    stripComments ns acc = (stripSpec ns, addMetadata acc (commentTotal ns))) ?_ ?_
  · intro acc
    simp [stripComments_nil, stripSpec_nil, commentTotal_nil, addMetadata_empty_right]
  · intro nd md cs rest ihc ihr acc
    by_cases h : nd = ASTNode.Comment
    · subst h
      rw [stripComments_cons_comment, stripSpec_cons_comment, commentTotal_cons_comment,
        ihr, addMetadata_assoc]
    · rw [stripComments_cons_ne nd h, stripSpec_cons_ne nd h, commentTotal_cons_ne nd h,
        ihc, ihr]
      simp [addMetadata_assoc]

/-- Closed form of `clean`: File node with whole-buffer metrics first, one
aggregated Comment when the total character count is nonzero, then the
comment-stripped remainder. -/
theorem clean_eq (path : String) (source : List Nat) (nodes : List SyntaxNode) :
    clean path source nodes =
      .mk (ASTNode.File path) (metadata_from_span source 0 source.length) [] ::
        ((if 0 < (commentTotal nodes).chars
          then [.mk ASTNode.Comment (commentTotal nodes) []] else []) ++
         stripSpec nodes) := by
  simp [clean, stripComments_eq, addMetadata_empty_left]

/-- C1 — The clean pass returns: first a File node whose path is the given
path, whose metrics are computed over the whole source buffer (byte 0 to its
length) and whose children list is empty; then exactly one aggregated
Comment node if and only if the field-wise total of all stripped comments
has nonzero character count; then the input forest with every Comment node
removed from its exact position, order and non-comment nodes unchanged
(which is what `stripSpec` computes). -/
theorem C1_clean_output_shape (path : String) (source : List Nat)
    (nodes : List SyntaxNode) :
    clean path source nodes =
      .mk (ASTNode.File path) (metadata_from_span source 0 source.length) [] ::
        ((if 0 < (commentTotal nodes).chars
          then [.mk ASTNode.Comment (commentTotal nodes) []] else []) ++
         stripSpec nodes) :=
  clean_eq path source nodes

/-! ### Aggregated comment metrics (claims about the clean pass) -/

theorem sumMetadata_nil : sumMetadata [] = emptyMetadata := rfl

theorem sumMetadata_cons (m : Metadata) (l : List Metadata) :
    sumMetadata (m :: l) = addMetadata m (sumMetadata l) := rfl

/-- The field-wise total of all stripped comments is the field-wise sum of
the collected comment metrics. -/
theorem commentTotal_eq_sum :
    ∀ ns, commentTotal ns = sumMetadata (collectComments ns) := by
  have happ : ∀ a b : List Metadata,
      sumMetadata (a ++ b) = addMetadata (sumMetadata a) (sumMetadata b) := by
    intro a b
    induction a with
    | nil => simp [sumMetadata_nil, addMetadata_empty_left]
    | cons x xs ih => simp only [List.cons_append, sumMetadata_cons, ih, addMetadata_assoc]
  refine synList_induction (fun ns => commentTotal ns = sumMetadata (collectComments ns)) ?_ ?_
  · simp [commentTotal_nil, collectComments_nil, sumMetadata_nil]
  · intro nd md cs rest ihc ihr
    by_cases h : nd = ASTNode.Comment
    · subst h
      rw [commentTotal_cons_comment, collectComments_cons_comment, sumMetadata_cons, ihr]
    · rw [commentTotal_cons_ne nd h, collectComments_cons_ne nd h, happ, ihc, ihr]

/-- C4 — Whenever the clean pass emits an aggregated Comment node (the
accumulated character count is nonzero), that node sits at position 1 and
carries exactly the field-wise sum of the metrics of all Comment nodes
stripped from the tree, at every depth. -/
theorem C4_aggregated_comment_is_fieldwise_sum (path : String) (source : List Nat)
    (nodes : List SyntaxNode) (h : 0 < (commentTotal nodes).chars) :
    (clean path source nodes)[1]? =
      some (.mk ASTNode.Comment (commentTotal nodes) []) ∧
    commentTotal nodes = sumMetadata (collectComments nodes) := by
  refine ⟨?_, commentTotal_eq_sum nodes⟩
  rw [clean_eq, if_pos h]
  simp

/-- C4 witness: two stripped comments with metrics {chars 5, words 2} merge
into an aggregated Comment with metrics {chars 10, words 4}, matching the
specification's example. -/
theorem C4_aggregated_comment_is_fieldwise_sum_witness :
    commentTotal [SyntaxNode.mk ASTNode.Comment ⟨5, 1, 2, 0, 0⟩ [],
                  SyntaxNode.mk ASTNode.Comment ⟨5, 1, 2, 0, 0⟩ []] = ⟨10, 2, 4, 0, 0⟩ ∧
    (clean "x.py" (asciiBytes "# one\n# two")
        [SyntaxNode.mk ASTNode.Comment ⟨5, 1, 2, 0, 0⟩ [],
         SyntaxNode.mk ASTNode.Comment ⟨5, 1, 2, 0, 0⟩ []])[1]? =
      some (SyntaxNode.mk ASTNode.Comment
        (commentTotal [SyntaxNode.mk ASTNode.Comment ⟨5, 1, 2, 0, 0⟩ [],
                       SyntaxNode.mk ASTNode.Comment ⟨5, 1, 2, 0, 0⟩ []]) []) := by
  have hct : commentTotal [SyntaxNode.mk ASTNode.Comment ⟨5, 1, 2, 0, 0⟩ [],
      SyntaxNode.mk ASTNode.Comment ⟨5, 1, 2, 0, 0⟩ []] = ⟨10, 2, 4, 0, 0⟩ := by
    rw [commentTotal_cons_comment, commentTotal_cons_comment, commentTotal_nil]
    decide
  refine ⟨hct, (C4_aggregated_comment_is_fieldwise_sum "x.py"
    (asciiBytes "# one\n# two") _ ?_).1⟩
  rw [hct]
  decide

/-! ### Idempotence of the clean pass (claim C3) -/

theorem commentTotal_stripSpec :
    ∀ ns, commentTotal (stripSpec ns) = emptyMetadata := by
  refine synList_induction (fun ns => commentTotal (stripSpec ns) = emptyMetadata) ?_ ?_
  · simp [stripSpec_nil, commentTotal_nil]
  · intro nd md cs rest ihc ihr
    by_cases h : nd = ASTNode.Comment
    · subst h
      rw [stripSpec_cons_comment]
      exact ihr
    · rw [stripSpec_cons_ne nd h, commentTotal_cons_ne nd h, ihc, ihr,
        addMetadata_empty_right]

theorem stripSpec_stripSpec :
    ∀ ns, stripSpec (stripSpec ns) = stripSpec ns := by
  refine synList_induction (fun ns => stripSpec (stripSpec ns) = stripSpec ns) ?_ ?_
  · simp [stripSpec_nil]
  · intro nd md cs rest ihc ihr
    by_cases h : nd = ASTNode.Comment
    · subst h
      rw [stripSpec_cons_comment]
      exact ihr
    · rw [stripSpec_cons_ne nd h, stripSpec_cons_ne nd h, ihc, ihr]

/-- C3 counterexample: the clean pass is not idempotent even on the empty
tree — a second application prepends a second File node. -/
theorem C3_clean_twice_counterexample :
    clean "p" [] (clean "p" [] []) ≠ clean "p" [] [] := by
  have h1 : clean "p" [] [] =
      [.mk (ASTNode.File "p") (metadata_from_span [] 0 0) []] := by
    rw [clean_eq]
    simp [commentTotal_nil, stripSpec_nil, emptyMetadata]
  have h2 : clean "p" [] [.mk (ASTNode.File "p") (metadata_from_span [] 0 0) []] =
      [.mk (ASTNode.File "p") (metadata_from_span [] 0 0) [],
       .mk (ASTNode.File "p") (metadata_from_span [] 0 0) []] := by
    rw [clean_eq, commentTotal_cons_ne (ASTNode.File "p") (by decide),
      stripSpec_cons_ne (ASTNode.File "p") (by decide)]
    simp [commentTotal_nil, stripSpec_nil, addMetadata_empty_right, addMetadata,
      emptyMetadata]
  rw [h1, h2]
  simp

/-- C3 amended — The clean pass is not idempotent: a second application
yields the first output with a fresh File node inserted after the re-hoisted
aggregated Comment (the first File node survives in the remainder). Its
comment-stripping core, however, is idempotent: stripping a stripped forest
changes nothing. -/
theorem C3_clean_twice_shape (path : String) (source : List Nat)
    (nodes : List SyntaxNode) :
    clean path source (clean path source nodes) =
      .mk (ASTNode.File path) (metadata_from_span source 0 source.length) [] ::
        ((if 0 < (commentTotal nodes).chars
          then [.mk ASTNode.Comment (commentTotal nodes) []] else []) ++
         (.mk (ASTNode.File path) (metadata_from_span source 0 source.length) [] ::
            stripSpec nodes)) ∧
    stripSpec (stripSpec nodes) = stripSpec nodes := by
  refine ⟨?_, stripSpec_stripSpec nodes⟩
  rw [clean_eq path source nodes, clean_eq]
  by_cases h : 0 < (commentTotal nodes).chars
  · rw [if_pos h]
    have hl : ([.mk ASTNode.Comment (commentTotal nodes) []] ++ stripSpec nodes) =
        .mk ASTNode.Comment (commentTotal nodes) [] :: stripSpec nodes := rfl
    rw [hl, commentTotal_cons_ne (ASTNode.File path) (by simp), commentTotal_cons_comment,
      commentTotal_nil, commentTotal_stripSpec, addMetadata_empty_right,
      addMetadata_empty_left, stripSpec_cons_ne (ASTNode.File path) (by simp),
      stripSpec_cons_comment, stripSpec_stripSpec, stripSpec_nil, if_pos h]
  · rw [if_neg h]
    have hl : (([] : List SyntaxNode) ++ stripSpec nodes) = stripSpec nodes := rfl
    rw [hl, commentTotal_cons_ne (ASTNode.File path) (by simp), commentTotal_nil,
      commentTotal_stripSpec, addMetadata_empty_right,
      stripSpec_cons_ne (ASTNode.File path) (by simp), stripSpec_stripSpec, stripSpec_nil]
    simp [addMetadata, emptyMetadata]

/-! ### Metric invariants across the pipeline (claim C2) -/

theorem AllMeta_nil (p : Metadata → Prop) : AllMeta p [] := by
  simp [AllMeta, collectAllMetas_nil]

theorem AllMeta_cons (p : Metadata → Prop) (nd : ASTNode) (md : Metadata)
    (cs rest : List SyntaxNode) :
    AllMeta p (.mk nd md cs :: rest) ↔ p md ∧ AllMeta p cs ∧ AllMeta p rest := by
  simp [AllMeta, collectAllMetas_cons, List.mem_append, or_imp, forall_and]

theorem AllMeta_mono (p q : Metadata → Prop) (h : ∀ m, p m → q m)
    (ns : List SyntaxNode) : AllMeta p ns → AllMeta q ns :=
  fun hp m hm => h m (hp m hm)

theorem AllMeta_stripSpec (p : Metadata → Prop) :
    ∀ ns, AllMeta p ns → AllMeta p (stripSpec ns) := by
  refine synList_induction (fun ns => AllMeta p ns → AllMeta p (stripSpec ns)) ?_ ?_
  · intro _
    rw [stripSpec_nil]
    exact AllMeta_nil p
  · intro nd md cs rest ihc ihr hall
    rw [AllMeta_cons] at hall
    obtain ⟨hmd, hcs, hrest⟩ := hall
    by_cases h : nd = ASTNode.Comment
    · subst h
      rw [stripSpec_cons_comment]
      exact ihr hrest
    · rw [stripSpec_cons_ne nd h, AllMeta_cons]
      exact ⟨hmd, ihc hcs, ihr hrest⟩

theorem metaInv_weak (m : Metadata) : MetaInv m → WeakMetaInv m := by
  intro h
  obtain ⟨h1, h2⟩ := h
  exact ⟨le_of_eq h1.symm, h2⟩

theorem addMetadata_weak (a b : Metadata) :
    WeakMetaInv a → WeakMetaInv b → WeakMetaInv (addMetadata a b) := by
  intro ha hb
  obtain ⟨ha1, ha2⟩ := ha
  obtain ⟨hb1, hb2⟩ := hb
  constructor <;> simp [addMetadata] <;> omega

theorem addMetadata_weak_cases (a b : Metadata)
    (ha : a = emptyMetadata ∨ WeakMetaInv a) (hb : b = emptyMetadata ∨ WeakMetaInv b) :
    addMetadata a b = emptyMetadata ∨ WeakMetaInv (addMetadata a b) := by
  rcases ha with ha | ha <;> rcases hb with hb | hb
  · subst ha; subst hb; left; rfl
  · subst ha; right; rw [addMetadata_empty_left]; exact hb
  · subst hb; right; rw [addMetadata_empty_right]; exact ha
  · right; exact addMetadata_weak a b ha hb

/-- The total of the stripped comments' metrics is either all-zero (no
comments) or satisfies the weakened invariant: the `lines` field is the sum
of each comment's `newlines + 1`, hence at least `newlines + 1` overall. -/
theorem commentTotal_weak :
    ∀ ns, AllMeta MetaInv ns →
      commentTotal ns = emptyMetadata ∨ WeakMetaInv (commentTotal ns) := by
  refine synList_induction (fun ns => AllMeta MetaInv ns →
    commentTotal ns = emptyMetadata ∨ WeakMetaInv (commentTotal ns)) ?_ ?_
  · intro _
    left
    exact commentTotal_nil
  · intro nd md cs rest ihc ihr hall
    rw [AllMeta_cons] at hall
    obtain ⟨hmd, hcs, hrest⟩ := hall
    by_cases h : nd = ASTNode.Comment
    · subst h
      rw [commentTotal_cons_comment]
      exact addMetadata_weak_cases _ _ (Or.inr (metaInv_weak md hmd)) (ihr hrest)
    · rw [commentTotal_cons_ne nd h]
      exact addMetadata_weak_cases _ _ (ihc hcs) (ihr hrest)

theorem collectAllMetas_append (b : List SyntaxNode) :
    ∀ a, collectAllMetas (a ++ b) = collectAllMetas a ++ collectAllMetas b := by
  refine synList_induction
    (fun a => collectAllMetas (a ++ b) = collectAllMetas a ++ collectAllMetas b) ?_ ?_
  · simp [collectAllMetas_nil]
  · intro nd md cs rest _ ihr
    rw [List.cons_append, collectAllMetas_cons, collectAllMetas_cons, ihr]
    simp

theorem AllMeta_append (p : Metadata → Prop) (a b : List SyntaxNode) :
    AllMeta p (a ++ b) ↔ AllMeta p a ∧ AllMeta p b := by
  simp [AllMeta, collectAllMetas_append, List.mem_append, or_imp, forall_and]

/-- C2 amended — Starting from any reducer output (every node's metrics are
span metrics, hence satisfy `lines = newlines + 1` and `chars ≥ whitespaces`),
all nodes of the clean pass's output satisfy `chars ≥ whitespaces` and
`lines ≥ newlines + 1`; the File node and the comment-stripped remainder
moreover satisfy the full `lines = newlines + 1` invariant. Only the
aggregated Comment node may exceed `newlines + 1`, by one per extra merged
comment. -/
theorem C2_clean_output_metrics_invariants (path : String) (source : List Nat)
    (nodes : List SyntaxNode) (h : AllMeta MetaInv nodes) :
    AllMeta WeakMetaInv (clean path source nodes) ∧
    MetaInv (metadata_from_span source 0 source.length) ∧
    AllMeta MetaInv (stripSpec nodes) := by
  have hstrip := AllMeta_stripSpec MetaInv nodes h
  refine ⟨?_, metadata_from_span_metaInv source 0 source.length, hstrip⟩
  rw [clean_eq, AllMeta_cons]
  refine ⟨metaInv_weak _ (metadata_from_span_metaInv source 0 source.length),
    AllMeta_nil _, ?_⟩
  rw [AllMeta_append]
  constructor
  · by_cases hc : 0 < (commentTotal nodes).chars
    · rw [if_pos hc, AllMeta_cons]
      refine ⟨?_, AllMeta_nil _, AllMeta_nil _⟩
      rcases commentTotal_weak nodes h with he | hw
      · rw [he] at hc
        exact absurd hc (by simp [emptyMetadata])
      · exact hw
    · rw [if_neg hc]
      exact AllMeta_nil _
  · exact AllMeta_mono MetaInv WeakMetaInv metaInv_weak _ hstrip

/-- C2 witness: a single stripped comment with genuine span metrics over the
buffer "# a". -/
theorem C2_clean_output_metrics_invariants_witness :
    AllMeta MetaInv [SyntaxNode.mk ASTNode.Comment ⟨3, 1, 2, 1, 0⟩ []] ∧
    AllMeta WeakMetaInv
      (clean "x.py" (asciiBytes "# a")
        [SyntaxNode.mk ASTNode.Comment ⟨3, 1, 2, 1, 0⟩ []]) := by
  have hin : AllMeta MetaInv [SyntaxNode.mk ASTNode.Comment ⟨3, 1, 2, 1, 0⟩ []] := by
    rw [AllMeta_cons]
    exact ⟨⟨rfl, by decide⟩, AllMeta_nil _, AllMeta_nil _⟩
  exact ⟨hin, (C2_clean_output_metrics_invariants "x.py" (asciiBytes "# a")
    [SyntaxNode.mk ASTNode.Comment ⟨3, 1, 2, 1, 0⟩ []] hin).1⟩

/-- C2 counterexample — Two one-line comments (span metrics of "# a" and
"# b" inside the buffer "# a\n# b") are merged by the clean pass into an
aggregated Comment whose metrics {chars 6, lines 2, words 4, whitespaces 2,
newlines 0} violate `lines = newlines + 1`. -/
theorem C2_aggregated_comment_violates_lines_newlines :
    ((clean "x.py" (asciiBytes "# a\n# b")
        [SyntaxNode.mk ASTNode.Comment
           (metadata_from_span (asciiBytes "# a\n# b") 0 3) [],
         SyntaxNode.mk ASTNode.Comment
           (metadata_from_span (asciiBytes "# a\n# b") 4 7) []])[1]?).map
      SyntaxNode.metadata = some ⟨6, 2, 4, 2, 0⟩ ∧
    ¬ MetaInv ⟨6, 2, 4, 2, 0⟩ := by
  have h1 : metadata_from_span (asciiBytes "# a\n# b") 0 3 = ⟨3, 1, 2, 1, 0⟩ := by decide
  have h2 : metadata_from_span (asciiBytes "# a\n# b") 4 7 = ⟨3, 1, 2, 1, 0⟩ := by decide
  constructor
  · rw [clean_eq, h1, h2, commentTotal_cons_comment, commentTotal_cons_comment,
      commentTotal_nil, stripSpec_cons_comment, stripSpec_cons_comment, stripSpec_nil]
    have hct : addMetadata ⟨3, 1, 2, 1, 0⟩
        (addMetadata ⟨3, 1, 2, 1, 0⟩ emptyMetadata) = ⟨6, 2, 4, 2, 0⟩ := by decide
    rw [hct]
    simp [SyntaxNode.metadata]
  · simp [MetaInv]

/-! ### Strings, import tables, and the reducers' name helpers -/

/-- Embeds Rust's `str::split_once`: split at the first occurrence of the
separator, returning the parts before and after it. Character-list level. -/
def splitOnceL (sep : List Char) : List Char → Option (List Char × List Char)
  | [] => none
  | c :: rest =>
    if sep.isPrefixOf (c :: rest) then some ([], (c :: rest).drop sep.length)
    else
      match splitOnceL sep rest with
      | some (h, t) => some (c :: h, t)
      | none => none

/-- String-level `split_once`. -/
def splitOnceStr (s : String) (sep : String) : Option (String × String) :=
  match splitOnceL sep.data s.data with
  | some (h, t) => some (⟨h⟩, ⟨t⟩)
  | none => none

/-- Embeds Rust's `str::ends_with(char)`. -/
def endsWithChar (s : String) (c : Char) : Bool := s.data.getLast? == some c

/-- The per-file import table of both reducers: local name to fully
qualified path. An association list looked up front-to-back, so that the
prepending `importsInsert` gives `HashMap::insert`'s shadowing semantics
(the most recent binding for a key wins). -/
abbrev Imports := List (String × String)

/-- Models `HashMap::insert`. -/
def importsInsert (m : Imports) (k v : String) : Imports := (k, v) :: m

/-- Models `HashMap::get`. -/
def importsGet (m : Imports) (k : String) : Option String :=
  match m with
  | [] => none
  | (k', v) :: rest => if k' = k then some v else importsGet rest k

theorem splitOnceL_append (sep : List Char) :
    ∀ {s h t : List Char}, splitOnceL sep s = some (h, t) → s = h ++ sep ++ t := by
  intro s
  induction s with
  | nil => intro h t hs; simp [splitOnceL] at hs
  | cons c rest ih =>
    intro h t hs
    rw [splitOnceL] at hs
    by_cases hp : sep.isPrefixOf (c :: rest)
    · rw [if_pos hp] at hs
      obtain ⟨r, hr⟩ := (List.isPrefixOf_iff_prefix.mp hp)
      rw [← hr] at hs
      rw [List.drop_left] at hs
      cases hs
      simpa using hr.symm
    · rw [if_neg hp] at hs
      cases hsp : splitOnceL sep rest with
      | none => rw [hsp] at hs; cases hs
      | some p =>
        obtain ⟨h0, t0⟩ := p
        rw [hsp] at hs
        cases hs
        have := ih hsp
        simp [this]

theorem splitOnceL_first (sep : List Char) :
    ∀ {s h t : List Char}, splitOnceL sep s = some (h, t) →
      ∀ h' t', s = h' ++ sep ++ t' → h.length ≤ h'.length := by
  intro s
  induction s with
  | nil => intro h t hs; simp [splitOnceL] at hs
  | cons c rest ih =>
    intro h t hs h' t' heq
    rw [splitOnceL] at hs
    by_cases hp : sep.isPrefixOf (c :: rest)
    · rw [if_pos hp] at hs
      cases hs
      simp
    · rw [if_neg hp] at hs
      cases h' with
      | nil =>
        exfalso
        apply hp
        apply List.isPrefixOf_iff_prefix.mpr
        exact ⟨t', by simpa using heq.symm⟩
      | cons c' h'' =>
        cases hsp : splitOnceL sep rest with
        | none => rw [hsp] at hs; cases hs
        | some p =>
          obtain ⟨h0, t0⟩ := p
          rw [hsp] at hs
          cases hs
          simp only [List.cons_append, List.cons.injEq] at heq
          have := ih hsp h'' t' heq.2
          simpa using this

theorem string_data_ext {a b : String} (h : a.data = b.data) : a = b := by
  cases a; cases b; simp at h; rw [h]

theorem splitOnceStr_some {s sep h t : String}
    (hs : splitOnceStr s sep = some (h, t)) :
    splitOnceL sep.data s.data = some (h.data, t.data) := by
  unfold splitOnceStr at hs
  cases hm : splitOnceL sep.data s.data with
  | none => rw [hm] at hs; cases hs
  | some p =>
    obtain ⟨hl, tl⟩ := p
    rw [hm] at hs
    cases hs
    rfl

/-- Splitting decomposes the string: the separator sits between the parts. -/
theorem splitOnceStr_decompose {s sep h t : String}
    (hs : splitOnceStr s sep = some (h, t)) : s = h ++ sep ++ t := by
  apply string_data_ext
  rw [String.data_append, String.data_append]
  exact splitOnceL_append sep.data (splitOnceStr_some hs)

/-- Splitting happens at the first occurrence: any other decomposition has
the separator at the same position or later. -/
theorem splitOnceStr_first {s sep h t : String}
    (hs : splitOnceStr s sep = some (h, t)) :
    ∀ h' t' : String, s = h' ++ sep ++ t' → h.length ≤ h'.length := by
  intro h' t' heq
  have hd : s.data = h'.data ++ sep.data ++ t'.data := by
    rw [← String.data_append, ← String.data_append]
    exact congrArg String.data heq
  exact splitOnceL_first sep.data (splitOnceStr_some hs) h'.data t'.data hd

namespace Py

/-- Embeds `qualify` (src/api/tree_sitter/py.rs, lines 94-102). -/
def qualify (module : String) (name : String) : String :=
  if module = "" then name
  else if endsWithChar module '.' then module ++ name
  else module ++ "." ++ name

/-- Embeds `resolve_call` (src/api/tree_sitter/py.rs, lines 214-226): split
at the first dot and substitute the head through the import table; keep the
raw name when the head is unmapped. -/
def resolveCall (name : String) (imports : Imports) : String :=
  let p :=
    match splitOnceStr name "." with
    | some (h, t) => (h, some t)
    | none => (name, (none : Option String))
  match importsGet imports p.1 with
  | some module =>
    match p.2 with
    | some rest => module ++ "." ++ rest
    | none => module
  | none => name

/-- First dotted segment of a call target (the key looked up in the import
table by `resolve_call`). -/
def firstSegment (name : String) : String :=
  match splitOnceStr name "." with
  | some (h, _) => h
  | none => name

end Py

namespace Rs

/-- Embeds `qualify` (src/api/tree_sitter/rs.rs, lines 103-109). -/
def qualify (pre : String) (name : String) : String :=
  if pre = "" then name else pre ++ "::" ++ name

/-- The head/separator/tail split at the top of `resolve_call`
(src/api/tree_sitter/rs.rs, lines 281-287): try `::` first, then `.`. -/
def splitHead (name : String) : String × String × Option String :=
  match splitOnceStr name "::" with
  | some (h, t) => (h, "::", some t)
  | none =>
    match splitOnceStr name "." with
    | some (h, t) => (h, ".", some t)
    | none => (name, "", none)

/-- Embeds `resolve_call` (src/api/tree_sitter/rs.rs, lines 279-299): skip
reserved relative prefixes, otherwise substitute the head through the import
table, reattaching the tail with the separator used for the split. -/
def resolveCall (name : String) (imports : Imports) : String :=
  let p := splitHead name
  if p.1 = "self" ∨ p.1 = "super" ∨ p.1 = "crate" then name
  else
    match importsGet imports p.1 with
    | some resolved =>
      match p.2.2 with
      | some rest => resolved ++ p.2.1 ++ rest
      | none => resolved
    | none => name

end Rs

/-! ### Claims about qualification and call resolution (C6, C9, C10) -/

/-- C9 counterexample — The Rust reducer's `qualify` inserts `::` even when
the prefix already ends in the separator, producing a duplicate: qualifying
`b` against `a::` yields `a::::b`, not the plain concatenation `a::b`. -/
theorem C9_rs_qualify_duplicates_separator :
    Rs.qualify "a::" "b" = "a::::b" ∧ ("a::::b" : String) ≠ "a::b" :=
  ⟨rfl, by decide⟩

/-- C9 amended — In the Python reducer all three behaviors hold: an empty
module prefix yields the bare name, a prefix ending in `.` is concatenated
without a duplicate separator, and otherwise exactly one `.` is inserted.
In the Rust reducer an empty prefix yields the bare name, but every
nonempty prefix gets `::` inserted unconditionally, duplicating the
separator when the prefix already ends in `::`. -/
theorem C9_qualify_behavior (module name pre : String) :
    Py.qualify "" name = name ∧
    (module ≠ "" → endsWithChar module '.' = true →
      Py.qualify module name = module ++ name) ∧
    (module ≠ "" → endsWithChar module '.' = false →
      Py.qualify module name = module ++ "." ++ name) ∧
    Rs.qualify "" name = name ∧
    (pre ≠ "" → Rs.qualify pre name = pre ++ "::" ++ name) := by
  refine ⟨by simp [Py.qualify], ?_, ?_, by simp [Rs.qualify], ?_⟩
  · intro h1 h2
    simp [Py.qualify, h1, h2]
  · intro h1 h2
    simp [Py.qualify, h1, h2]
  · intro h1
    simp [Rs.qualify, h1]

/-- C9 witness: a normal Python module, the Python relative-import prefix
ending in a dot, and a Rust scope prefix. -/
theorem C9_qualify_behavior_witness :
    Py.qualify "os.path" "join" = "os.path" ++ "." ++ "join" ∧
    Py.qualify "." "models" = "." ++ "models" ∧
    Rs.qualify "std" "io" = "std" ++ "::" ++ "io" :=
  ⟨(C9_qualify_behavior "os.path" "join" "std").2.2.1 (by decide) (by decide),
   (C9_qualify_behavior "." "models" "std").2.1 (by decide) (by decide),
   (C9_qualify_behavior "os.path" "io" "std").2.2.2.2 (by decide)⟩

/-- C6 counterexample — The Python reducer has no reserved-prefix check: if
the import table maps the local name `self` (as `import os as self` would),
a call target `self.foo` is rewritten to `os.foo` instead of being kept. -/
theorem C6_py_self_prefix_rewritten :
    Py.resolveCall "self.foo" [("self", "os")] = "os.foo" ∧
    ("os.foo" : String) ≠ "self.foo" :=
  ⟨rfl, by decide⟩

/-- C6 amended — The Rust reducer's `resolve_call` keeps the raw name
unchanged whenever the head segment is `self`, `super` or `crate`,
regardless of the import table. The Python reducer has no such check: it
keeps the raw name exactly when the import table has no entry for the first
dotted segment, so a `self.` call is only safe because the table normally
has no `self` key. -/
theorem C6_reserved_prefix_resolution (name : String) (imports : Imports) :
    ((Rs.splitHead name).1 = "self" ∨ (Rs.splitHead name).1 = "super" ∨
        (Rs.splitHead name).1 = "crate" →
      Rs.resolveCall name imports = name) ∧
    (importsGet imports (Py.firstSegment name) = none →
      Py.resolveCall name imports = name) := by
  constructor
  · intro h
    simp only [Rs.resolveCall]
    rw [if_pos h]
  · intro h
    simp only [Py.resolveCall]
    cases hs : splitOnceStr name "." with
    | none =>
      simp only [Py.firstSegment, hs] at h
      simp [hs, h]
    | some p =>
      obtain ⟨hd, tl⟩ := p
      simp only [Py.firstSegment, hs] at h
      simp [hs, h]

/-- C6 witness: `self.foo` and `crate::util::run` survive Rust resolution
against a nonempty table; an unmapped bare Python call is kept raw. -/
theorem C6_reserved_prefix_resolution_witness :
    Rs.resolveCall "self.foo" [("self", "os")] = "self.foo" ∧
    Rs.resolveCall "crate::util::run" [("util", "x")] = "crate::util::run" ∧
    Py.resolveCall "unknown_func" [("np", "numpy")] = "unknown_func" :=
  ⟨(C6_reserved_prefix_resolution "self.foo" [("self", "os")]).1 (by decide),
   (C6_reserved_prefix_resolution "crate::util::run" [("util", "x")]).1 (by decide),
   (C6_reserved_prefix_resolution "unknown_func" [("np", "numpy")]).2 (by decide)⟩

/-- C10 — In the Rust reducer's `resolve_call`, a name containing `::` is
split at its first `::` (any other decomposition of the name around `::`
puts the separator later), the head is looked up, and the tail is
reattached with `::`; only a name containing no `::` is split at its first
`.`, with `.` reattached. The reserved-prefix guard applies in both cases. -/
theorem C10_rust_split_precedence (name : String) (imports : Imports) :
    (∀ h t : String, splitOnceStr name "::" = some (h, t) →
      name = h ++ "::" ++ t ∧
      (∀ h' t' : String, name = h' ++ "::" ++ t' → h.length ≤ h'.length) ∧
      Rs.resolveCall name imports =
        (if h = "self" ∨ h = "super" ∨ h = "crate" then name
         else
           match importsGet imports h with
           | some resolved => resolved ++ "::" ++ t
           | none => name)) ∧
    (splitOnceStr name "::" = none →
      ∀ h t : String, splitOnceStr name "." = some (h, t) →
        name = h ++ "." ++ t ∧
        (∀ h' t' : String, name = h' ++ "." ++ t' → h.length ≤ h'.length) ∧
        Rs.resolveCall name imports =
          (if h = "self" ∨ h = "super" ∨ h = "crate" then name
           else
             match importsGet imports h with
             | some resolved => resolved ++ "." ++ t
             | none => name)) := by
  constructor
  · intro h t hs
    refine ⟨splitOnceStr_decompose hs, splitOnceStr_first hs, ?_⟩
    simp only [Rs.resolveCall, Rs.splitHead, hs]
  · intro h0 h t hs
    refine ⟨splitOnceStr_decompose hs, splitOnceStr_first hs, ?_⟩
    simp only [Rs.resolveCall, Rs.splitHead, h0, hs]

/-- C10 witness: `a.b::c` contains both separators and is split at `::`
(head `a.b`, even though a `.` occurs earlier), so a table entry for `a.b`
rewrites it with `::` reattached; `p.q` contains no `::` and is split at
`.`. -/
theorem C10_rust_split_precedence_witness :
    Rs.resolveCall "a.b::c" [("a.b", "x")] = "x::c" ∧
    "a.b::c" = "a.b" ++ "::" ++ "c" ∧
    Rs.resolveCall "p.q" [("p", "tree")] = "tree.q" := by
  have h1 := (C10_rust_split_precedence "a.b::c" [("a.b", "x")]).1 "a.b" "c" (by decide)
  have h2 := (C10_rust_split_precedence "p.q" [("p", "tree")]).2 (by decide) "p" "q" (by decide)
  refine ⟨?_, h1.1, ?_⟩
  · rw [h1.2.2]
    decide
  · rw [h2.2.2]
    decide

/-! ### The grammar engine's node interface and the Python reducer
(src/api/tree_sitter/py.rs) -/

/-- Embedding of the external grammar engine's concrete-syntax node: a node
identity, a kind tag, byte start/end offsets, the UTF-8 text of its span,
and the ordered named children, each paired with its field name when the
grammar assigns one. `named_children`, `child_by_field_name`, `utf8_text`,
`start_byte`/`end_byte` and `id` are modeled as accessors below. -/
inductive TSNode where
  | mk (id : Nat) (kind : String) (startB endB : Nat) (text : String)
       (children : List (Option String × TSNode))

def TSNode.id : TSNode → Nat
  | .mk i _ _ _ _ _ => i

def TSNode.kind : TSNode → String
  | .mk _ k _ _ _ _ => k

def TSNode.startB : TSNode → Nat
  | .mk _ _ s _ _ _ => s

def TSNode.endB : TSNode → Nat
  | .mk _ _ _ e _ _ => e

def TSNode.text : TSNode → String
  | .mk _ _ _ _ t _ => t

def TSNode.children : TSNode → List (Option String × TSNode)
  | .mk _ _ _ _ _ cs => cs

/-- First child carrying the given field name, as `child_by_field_name`. -/
def findField : List (Option String × TSNode) → String → Option TSNode
  | [], _ => none
  | (f, c) :: rest, fld => if f = some fld then some c else findField rest fld

def TSNode.childByField (n : TSNode) (fld : String) : Option TSNode :=
  findField n.children fld

def TSNode.namedChildCount (n : TSNode) : Nat := n.children.length

def TSNode.namedChild (n : TSNode) (i : Nat) : Option TSNode :=
  (n.children[i]?).map (fun p => p.2)

/-- Embeds `field_text`: the text of the named field's child, or "". -/
def fieldText (n : TSNode) (fld : String) : String :=
  match n.childByField fld with
  | some c => c.text
  | none => ""

theorem sizeOf_lt_of_findField {l : List (Option String × TSNode)} {fld : String}
    {c : TSNode} (h : findField l fld = some c) : sizeOf c < sizeOf l := by
  induction l with
  | nil => simp [findField] at h
  | cons p rest ih =>
    obtain ⟨f, ch⟩ := p
    rw [findField] at h
    by_cases hf : f = some fld
    · rw [if_pos hf] at h
      cases h
      simp
      omega
    · rw [if_neg hf] at h
      have := ih h
      simp
      omega

theorem sizeOf_lt_of_childByField {n : TSNode} {fld : String} {c : TSNode}
    (h : n.childByField fld = some c) : sizeOf c < sizeOf n := by
  have h1 : sizeOf c < sizeOf n.children := sizeOf_lt_of_findField h
  cases n with
  | mk i k s e t cs =>
    simp [TSNode.children] at h1 ⊢
    omega

theorem sizeOf_children_lt (n : TSNode) : sizeOf n.children < sizeOf n := by
  cases n with
  | mk i k s e t cs =>
    simp [TSNode.children] <;> omega

namespace Py

/-- Embeds `meta` (src/api/tree_sitter/py.rs): span metrics of a node. -/
def nodeMeta (node : TSNode) (src : List Nat) : Metadata :=
  metadata_from_span src node.startB node.endB

/-- The `import_statement` arm of `collect_imports_inner` (src/api/tree_sitter/py.rs,
lines 39-52): only `aliased_import` children with a nonempty alias add an
entry mapping the alias to the imported name. -/
def importStatementAliases (child : TSNode) (imports : Imports) : Imports :=
  child.children.foldl
    (fun imp p =>
      if p.2.kind = "aliased_import" then
        let name := fieldText p.2 "name"
        let aliasName := fieldText p.2 "alias"
        if aliasName ≠ "" then importsInsert imp aliasName name else imp
      else imp)
    imports

/-- The `import_from_statement` arm of `collect_imports_inner`
(src/api/tree_sitter/py.rs, lines 54-86): qualify each imported name (or its
alias) against the module, skipping the `module_name` child by node id. -/
def importFromEntries (child : TSNode) (imports : Imports) : Imports :=
  let module :=
    match child.childByField "module_name" with
    | some n => n.text
    | none => ""
  let moduleId := (child.childByField "module_name").map TSNode.id
  child.children.foldl
    (fun imp p =>
      if some p.2.id = moduleId then imp
      else
        match p.2.kind with
        | "dotted_name" => importsInsert imp p.2.text (qualify module p.2.text)
        | "aliased_import" =>
          let name := fieldText p.2 "name"
          let aliasName := fieldText p.2 "alias"
          let key := if aliasName = "" then name else aliasName
          importsInsert imp key (qualify module name)
        | _ => imp)
    imports

/-- Embeds `collect_imports_inner` (src/api/tree_sitter/py.rs, lines 35-92)
as a recursion over the named-children list: module-level import forms feed
the table, function and class bodies are not entered, and every other node
is recursed through. -/
def collectList : List (Option String × TSNode) → Imports → Imports
  | [], imports => imports
  | (_, child) :: rest, imports =>
    let imports' :=
      match child.kind with
      | "import_statement" => importStatementAliases child imports
      | "import_from_statement" => importFromEntries child imports
      | "function_definition" => imports
      | "class_definition" => imports
      | _ => collectList child.children imports
    collectList rest imports'
termination_by l => sizeOf l
decreasing_by
  all_goals
    first
    | (have h1 := sizeOf_children_lt child
       simp <;> omega)
    | (simp <;> omega)

/-- Embeds `collect_imports`: walk the root's named children with an empty
table. -/
def collectImports (root : TSNode) : Imports := collectList root.children []

/-- Embeds `dotted_name` (src/api/tree_sitter/py.rs, lines 195-211):
compose attribute chains left-to-right into a dotted string. -/
def dottedName (node : TSNode) : String :=
  if node.kind = "identifier" then node.text
  else if node.kind = "attribute" then
    (match h : node.childByField "object" with
     | some n => dottedName n
     | none => "") ++ "." ++
    (match node.childByField "attribute" with
     | some n => n.text
     | none => "")
  else node.text
termination_by sizeOf node
decreasing_by
  exact sizeOf_lt_of_childByField h

/-- Embeds `walk` (src/api/tree_sitter/py.rs, lines 106-175) as a recursion
over the named-children list: declarations capture their name and recurse
into the `body` field, calls resolve their dotted target through the import
table, bare string-literal expression statements and comments become
`Comment` nodes, import forms are dropped, and every other node kind is
transparently recursed through. -/
def walkList (src : List Nat) (imports : Imports) :
    List (Option String × TSNode) → List SyntaxNode
  | [] => []
  | (_, child) :: rest =>
    (match child.kind with
     | "function_definition" =>
       [SyntaxNode.mk (ASTNode.Function (fieldText child "name")) (nodeMeta child src)
         (match hb : child.childByField "body" with
          | some b => walkList src imports b.children
          | none => [])]
     | "class_definition" =>
       [SyntaxNode.mk (ASTNode.«Type» (fieldText child "name")) (nodeMeta child src)
         (match hb : child.childByField "body" with
          | some b => walkList src imports b.children
          | none => [])]
     | "call" =>
       [SyntaxNode.mk
         (ASTNode.Call (resolveCall
           (match child.childByField "function" with
            | some f => dottedName f
            | none => "") imports))
         (nodeMeta child src) []]
     | "expression_statement" =>
       if child.namedChildCount == 1 &&
           (child.namedChild 0).any (fun c0 => c0.kind == "string") then
         [SyntaxNode.mk ASTNode.Comment (nodeMeta child src) []]
       else walkList src imports child.children
     | "comment" => [SyntaxNode.mk ASTNode.Comment (nodeMeta child src) []]
     | "import_statement" => []
     | "import_from_statement" => []
     | "future_import_statement" => []
     | _ => walkList src imports child.children) ++
    walkList src imports rest
termination_by l => sizeOf l
decreasing_by
  all_goals
    first
    | (have h1 := sizeOf_lt_of_childByField hb
       have h2 := sizeOf_children_lt b
       simp <;> omega)
    | (have h1 := sizeOf_children_lt child
       simp <;> omega)
    | (simp <;> omega)

/-- Embeds the tree walk of `Python::parse` (src/api/tree_sitter/py.rs,
lines 16-25): collect the import table from the root, then walk the root's
named children. The grammar engine's parse tree is the input. -/
def parse (root : TSNode) (src : List Nat) : List SyntaxNode :=
  walkList src (collectImports root) root.children

end Py

/-! ### Concrete Python parse trees for import resolution (claim C5)

The three trees below transcribe the concrete-syntax trees tree-sitter-python
produces for the three sources of the claim, with node ids, kinds, field
names, byte spans and span texts. -/

/-- Grammar tree of `"from os.path import join\njoin(1, 2)\n"`. -/
def pyTreeFromImport : TSNode :=
  .mk 0 "module" 0 36 "from os.path import join\njoin(1, 2)\n"
    [(none, .mk 1 "import_from_statement" 0 24 "from os.path import join"
        [(some "module_name", .mk 2 "dotted_name" 5 12 "os.path"
            [(none, .mk 3 "identifier" 5 7 "os" []),
             (none, .mk 4 "identifier" 8 12 "path" [])]),
         (some "name", .mk 5 "dotted_name" 20 24 "join"
            [(none, .mk 6 "identifier" 20 24 "join" [])])]),
     (none, .mk 7 "expression_statement" 25 35 "join(1, 2)"
        [(none, .mk 8 "call" 25 35 "join(1, 2)"
            [(some "function", .mk 9 "identifier" 25 29 "join" []),
             (some "arguments", .mk 10 "argument_list" 29 35 "(1, 2)"
                [(none, .mk 11 "integer" 30 31 "1" []),
                 (none, .mk 12 "integer" 33 34 "2" [])])])])]

/-- Grammar tree of `"import numpy as np\nnp.array([1])\n"`. -/
def pyTreeAliasedImport : TSNode :=
  .mk 0 "module" 0 34 "import numpy as np\nnp.array([1])\n"
    [(none, .mk 1 "import_statement" 0 18 "import numpy as np"
        [(some "name", .mk 2 "aliased_import" 7 18 "numpy as np"
            [(some "name", .mk 3 "dotted_name" 7 12 "numpy"
                [(none, .mk 4 "identifier" 7 12 "numpy" [])]),
             (some "alias", .mk 5 "identifier" 16 18 "np" [])])]),
     (none, .mk 6 "expression_statement" 19 32 "np.array([1])"
        [(none, .mk 7 "call" 19 32 "np.array([1])"
            [(some "function", .mk 8 "attribute" 19 27 "np.array"
                [(some "object", .mk 9 "identifier" 19 21 "np" []),
                 (some "attribute", .mk 10 "identifier" 22 27 "array" [])]),
             (some "arguments", .mk 11 "argument_list" 28 32 "([1])"
                [(none, .mk 12 "list" 29 31 "[1]"
                    [(none, .mk 13 "integer" 30 31 "1" [])])])])])]

/-- Grammar tree of `"unknown_func()\n"`. -/
def pyTreeUnknownCall : TSNode :=
  .mk 0 "module" 0 15 "unknown_func()\n"
    [(none, .mk 1 "expression_statement" 0 14 "unknown_func()"
        [(none, .mk 2 "call" 0 14 "unknown_func()"
            [(some "function", .mk 3 "identifier" 0 12 "unknown_func" []),
             (some "arguments", .mk 4 "argument_list" 12 14 "()" [])])])]

set_option maxHeartbeats 1000000 in
/-- C5 — In the Python reducer: `from os.path import join` followed by
`join(...)` yields a Call node named `os.path.join`; `import numpy as np`
followed by `np.array(...)` yields a Call node named `numpy.array`; and a
call whose first segment has no entry in the import table (`unknown_func()`)
keeps its raw name. -/
theorem C5_python_import_resolution :
    (Py.parse pyTreeFromImport
        (asciiBytes "from os.path import join\njoin(1, 2)\n")).map
      SyntaxNode.node = [ASTNode.Call "os.path.join"] ∧
    (Py.parse pyTreeAliasedImport
        (asciiBytes "import numpy as np\nnp.array([1])\n")).map
      SyntaxNode.node = [ASTNode.Call "numpy.array"] ∧
    (Py.parse pyTreeUnknownCall (asciiBytes "unknown_func()\n")).map
      SyntaxNode.node = [ASTNode.Call "unknown_func"] := by
  refine ⟨?_, ?_, ?_⟩
  · have h1 : Py.collectImports pyTreeFromImport = [("join", "os.path.join")] := by
      simp [Py.collectImports, Py.collectList, Py.importFromEntries, pyTreeFromImport,
        TSNode.children, TSNode.kind, TSNode.childByField, findField, TSNode.text,
        TSNode.id, importsInsert, Py.qualify, endsWithChar, fieldText]
      decide
    have hr : Py.resolveCall "join" [("join", "os.path.join")] = "os.path.join" := rfl
    simp only [Py.parse, h1]
    simp [Py.walkList, pyTreeFromImport, TSNode.children, TSNode.kind,
      TSNode.childByField, findField, TSNode.text, TSNode.namedChildCount,
      TSNode.namedChild, Py.dottedName, hr, Option.any, SyntaxNode.node]
  · have h1 : Py.collectImports pyTreeAliasedImport = [("np", "numpy")] := by
      simp [Py.collectImports, Py.collectList, Py.importStatementAliases,
        pyTreeAliasedImport, TSNode.children, TSNode.kind, fieldText,
        TSNode.childByField, findField, TSNode.text, importsInsert]
    have hd : Py.dottedName (.mk 8 "attribute" 19 27 "np.array"
        [(some "object", .mk 9 "identifier" 19 21 "np" []),
         (some "attribute", .mk 10 "identifier" 22 27 "array" [])]) = "np.array" := by
      simp [Py.dottedName, TSNode.kind, TSNode.childByField, TSNode.children,
        findField, TSNode.text]
      decide
    have hr : Py.resolveCall "np.array" [("np", "numpy")] = "numpy.array" := rfl
    simp only [Py.parse, h1]
    simp [Py.walkList, pyTreeAliasedImport, TSNode.children, TSNode.kind,
      TSNode.childByField, findField, TSNode.text, TSNode.namedChildCount,
      TSNode.namedChild, hd, hr, Option.any, SyntaxNode.node]
  · have h1 : Py.collectImports pyTreeUnknownCall = [] := by
      simp [Py.collectImports, Py.collectList, pyTreeUnknownCall, TSNode.children,
        TSNode.kind]
    have hr : Py.resolveCall "unknown_func" [] = "unknown_func" := rfl
    simp only [Py.parse, h1]
    simp [Py.walkList, pyTreeUnknownCall, TSNode.children, TSNode.kind,
      TSNode.childByField, findField, TSNode.text, TSNode.namedChildCount,
      TSNode.namedChild, Py.dottedName, hr, Option.any, SyntaxNode.node]

/-! ### Orchestration and error propagation (src/consolidate.rs, src/api/fs.rs,
src/error.rs) -/

/-- Embeds `BoloError` (src/error.rs), paths kept as display strings. -/
inductive BoloError where
  | InvalidPath (path reason : String)
  | Walk (path reason : String)
  | Read (path reason : String)
  | Parse (file reason : String)
  | Exists (path : String)
  | Serialize (reason : String)
  | Write (path reason : String)
deriving DecidableEq

/-- Embeds `File` (src/api/fs.rs): the absolute canonicalized path and the
path relative to the walk root. -/
structure FSFile where
  path : String
  rel_path : String
deriving DecidableEq

/-- Embeds `File::read` (src/api/fs.rs, lines 18-25). The filesystem is an
oracle from absolute paths to contents or an error reason; a failure is
wrapped in `BoloError::Read` tagged with the file's absolute `path` field. -/
def fileRead (readFs : String → Except String (List Nat)) (f : FSFile) :
    Except BoloError (List Nat) :=
  match readFs f.path with
  | .ok source => .ok source
  | .error e => .error (.Read f.path e)

/-- Embeds the per-file closure shared by `folder` and `recursive`
(src/consolidate.rs, lines 20-32 and 45-57): read the file, parse it
through the language oracle — wrapping a parse failure in `BoloError::Parse`
tagged with the relative path — and clean the resulting tree against the
relative path. -/
def processFile (readFs : String → Except String (List Nat))
    (parseFs : List Nat → Except String (List SyntaxNode)) (file : FSFile) :
    Except BoloError (List SyntaxNode) :=
  match fileRead readFs file with
  | .error e => .error e
  | .ok source =>
    match parseFs source with
    | .ok ast => .ok (clean file.rel_path source ast)
    | .error e => .error (.Parse file.rel_path e)

/-- Embeds `par_iter().map(...).collect::<Result<Vec<_>, _>>()` of both
orchestrator modes over an already-discovered file list (discovery itself is
the external walker). The ordered gather over `Result`s is modeled by the
order-preserving sequential traversal: an error anywhere yields an error
for the whole batch and no partial collection. -/
def consolidateBatch (readFs : String → Except String (List Nat))
    (parseFs : List Nat → Except String (List SyntaxNode)) :
    List FSFile → Except BoloError (List (List SyntaxNode))
  | [] => .ok []
  | f :: rest =>
    match processFile readFs parseFs f with
    | .error e => .error e
    | .ok nodes =>
      match consolidateBatch readFs parseFs rest with
      | .error e => .error e
      | .ok results => .ok (nodes :: results)

/-- C8 counterexample — A read failure is surfaced as `BoloError::Read`
tagged with the file's absolute canonicalized path, not its relative path:
for a file at `/root/sub/deep.py` with relative path `sub/deep.py`, the
batch error names `/root/sub/deep.py`. -/
theorem C8_read_error_tagged_with_absolute_path :
    consolidateBatch (fun _ => .error "permission denied") (fun _ => .ok [])
      [⟨"/root/sub/deep.py", "sub/deep.py"⟩] =
      .error (.Read "/root/sub/deep.py" "permission denied") ∧
    ("/root/sub/deep.py" : String) ≠ "sub/deep.py" :=
  ⟨rfl, by decide⟩

/-- C8 amended — If reading or reducing any single file fails, the whole
batch (in either orchestrator mode) returns an error and no partial
collection; every surfaced error stems from some file of the batch and
carries an underlying reason string, a reduce failure being tagged with that
file's relative path but a read failure with its absolute path. -/
theorem C8_batch_error_propagation
    (readFs : String → Except String (List Nat))
    (parseFs : List Nat → Except String (List SyntaxNode))
    (files : List FSFile) :
    (∀ e, consolidateBatch readFs parseFs files = .error e →
      ∃ f ∈ files,
        (∃ r, readFs f.path = .error r ∧ e = .Read f.path r) ∨
        (∃ src r, readFs f.path = .ok src ∧ parseFs src = .error r ∧
          e = .Parse f.rel_path r)) ∧
    ((∃ f ∈ files, (∃ r, readFs f.path = .error r) ∨
        (∃ src r, readFs f.path = .ok src ∧ parseFs src = .error r)) →
      ∃ e, consolidateBatch readFs parseFs files = .error e) := by
  induction files with
  | nil =>
    constructor
    · intro e he
      simp [consolidateBatch] at he
    · intro h
      simp at h
  | cons f rest ih =>
    constructor
    · intro e he
      rw [consolidateBatch] at he
      cases hp : processFile readFs parseFs f with
      | error e0 =>
        rw [hp] at he
        cases he
        refine ⟨f, by simp, ?_⟩
        unfold processFile fileRead at hp
        cases hr : readFs f.path with
        | error r =>
          simp only [hr] at hp
          cases hp
          exact Or.inl ⟨r, rfl, rfl⟩
        | ok src =>
          simp only [hr] at hp
          cases hs : parseFs src with
          | error r =>
            simp only [hs] at hp
            cases hp
            exact Or.inr ⟨src, r, rfl, hs, rfl⟩
          | ok ast =>
            simp only [hs] at hp
            cases hp
      | ok nodes =>
        rw [hp] at he
        cases hb : consolidateBatch readFs parseFs rest with
        | error e1 =>
          rw [hb] at he
          cases he
          obtain ⟨g, hg, hprop⟩ := ih.1 _ hb
          exact ⟨g, by simp [hg], hprop⟩
        | ok results =>
          rw [hb] at he
          cases he
    · intro h
      obtain ⟨g, hg, hfail⟩ := h
      rw [List.mem_cons] at hg
      cases hg with
      | inl hgf =>
        subst hgf
        rw [consolidateBatch]
        cases hp : processFile readFs parseFs g with
        | error e0 => exact ⟨e0, rfl⟩
        | ok nodes =>
          exfalso
          unfold processFile fileRead at hp
          cases hfail with
          | inl hr =>
            obtain ⟨r, hr⟩ := hr
            simp [hr] at hp
          | inr hs =>
            obtain ⟨src, r, hsrc, hparse⟩ := hs
            simp [hsrc, hparse] at hp
      | inr hgrest =>
        have ⟨e1, he1⟩ := ih.2 ⟨g, hgrest, hfail⟩
        rw [consolidateBatch]
        cases hp : processFile readFs parseFs f with
        | error e0 => exact ⟨e0, rfl⟩
        | ok nodes =>
          rw [he1]
          exact ⟨e1, rfl⟩

/-- C8 witness: a two-file batch whose second file is unreadable fails as a
whole, with the surfaced error naming the offending file. -/
theorem C8_batch_error_propagation_witness :
    (∃ e, consolidateBatch
        (fun p => if p = "/r/a.py" then .ok (asciiBytes "x()\n")
                  else .error "unreadable")
        (fun _ => .ok [])
        [⟨"/r/a.py", "a.py"⟩, ⟨"/r/sub/b.py", "sub/b.py"⟩] = .error e) ∧
    consolidateBatch
        (fun p => if p = "/r/a.py" then .ok (asciiBytes "x()\n")
                  else .error "unreadable")
        (fun _ => .ok [])
        [⟨"/r/a.py", "a.py"⟩, ⟨"/r/sub/b.py", "sub/b.py"⟩] =
      .error (.Read "/r/sub/b.py" "unreadable") := by
  constructor
  · exact (C8_batch_error_propagation
      (fun p => if p = "/r/a.py" then .ok (asciiBytes "x()\n")
                else .error "unreadable")
      (fun _ => .ok [])
      [⟨"/r/a.py", "a.py"⟩, ⟨"/r/sub/b.py", "sub/b.py"⟩]).2
      ⟨⟨"/r/sub/b.py", "sub/b.py"⟩, by simp, Or.inl ⟨"unreadable", by simp⟩⟩
  · rfl

/-- Every node the Python reducer emits carries span metrics of the source
buffer, so the whole reducer output satisfies both metric invariants — the
hypothesis under which the clean-pass invariants above hold. -/
theorem walkList_allMetaInv (src : List Nat) (imports : Imports) :
    ∀ l, AllMeta MetaInv (Py.walkList src imports l) := by
  have H : ∀ n, ∀ l : List (Option String × TSNode), sizeOf l ≤ n →
      AllMeta MetaInv (Py.walkList src imports l) := by
    intro n
    induction n with
    | zero =>
      intro l hl
      cases l <;> simp at hl
    | succ n ih =>
      intro l hl
      cases l with
      | nil =>
        rw [Py.walkList]
        exact AllMeta_nil _
      | cons p rest =>
        obtain ⟨fld, child⟩ := p
        have hrest : sizeOf rest ≤ n := by simp at hl; omega
        have hchild : sizeOf child.children ≤ n := by
          have := sizeOf_children_lt child
          simp at hl
          omega
        rw [Py.walkList, AllMeta_append]
        refine ⟨?_, ih rest hrest⟩
        split
        · rw [AllMeta_cons]
          refine ⟨metadata_from_span_metaInv _ _ _, ?_, AllMeta_nil _⟩
          split
          · rename_i b hb
            have hblt := sizeOf_lt_of_childByField hb
            have hbc := sizeOf_children_lt b
            exact ih b.children (by simp at hl; omega)
          · exact AllMeta_nil _
        · rw [AllMeta_cons]
          refine ⟨metadata_from_span_metaInv _ _ _, ?_, AllMeta_nil _⟩
          split
          · rename_i b hb
            have hblt := sizeOf_lt_of_childByField hb
            have hbc := sizeOf_children_lt b
            exact ih b.children (by simp at hl; omega)
          · exact AllMeta_nil _
        · rw [AllMeta_cons]
          exact ⟨metadata_from_span_metaInv _ _ _, AllMeta_nil _, AllMeta_nil _⟩
        · split
          · rw [AllMeta_cons]
            exact ⟨metadata_from_span_metaInv _ _ _, AllMeta_nil _, AllMeta_nil _⟩
          · exact ih child.children hchild
        · rw [AllMeta_cons]
          exact ⟨metadata_from_span_metaInv _ _ _, AllMeta_nil _, AllMeta_nil _⟩
        · exact AllMeta_nil _
        · exact AllMeta_nil _
        · exact AllMeta_nil _
        · exact ih child.children hchild
  exact fun l => H (sizeOf l) l le_rfl

/-- The full Python reducer output satisfies the metric invariants. -/
theorem py_parse_allMetaInv (root : TSNode) (src : List Nat) :
    AllMeta MetaInv (Py.parse root src) :=
  walkList_allMetaInv src (Py.collectImports root) root.children
